import Mathlib

/- Verification of the split-delta module of a structured-document editing
   engine (packages/ckeditor5-engine/src/model/delta/splitdelta.js).

   The tree, position and operation primitives are external collaborators of
   that module and are modelled here from the specification.  The `SplitDelta`
   accessors, its reversal override and the registered `split` batch method
   are translated directly from the source file. -/

/-- Modelled from the spec: a tree node is a named element with an attribute
list and an ordered child sequence, or a leaf.  Leaves are opaque unit-size
items, so an element's maxOffset is its number of children. -/
inductive Node where
  | leaf (id : Nat)
  | element (name : String) (attrs : List (String × String)) (children : List Node)

/-- Modelled from the spec: a position locates a point between the children of
a parent element: a path of child indices from the root down to the parent,
and an offset into that parent (in [0, parent.maxOffset]). -/
structure Position where
  path : List Nat
  offset : Nat

/-- Modelled from the spec: resolve a path to the node it addresses. -/
def Node.get? : Node → List Nat → Option Node
  | n, [] => some n
  | Node.leaf _, _ :: _ => none
  | Node.element _ _ cs, i :: p =>
    match cs[i]? with
    | some c => Node.get? c p
    | none => none

/-- Modelled from the spec: rebuild a tree after editing the child list of the
element addressed by a path; the edit also reports the nodes it took out
(empty for a pure insertion). -/
def Node.editAt : Node → List Nat → (List Node → Option (List Node × List Node)) → Option (Node × List Node)
  | Node.leaf _, _, _ => none
  | Node.element nm a cs, [], f =>
    match f cs with
    | some r => some (Node.element nm a r.1, r.2)
    | none => none
  | Node.element nm a cs, i :: p, f =>
    match cs[i]? with
    | some c =>
      match Node.editAt c p f with
      | some r => some (Node.element nm a (cs.set i r.1), r.2)
      | none => none
    | none => none

/-- Modelled from the spec: splice nodes between the children of an element at
a given offset. -/
def insertList (off : Nat) (ns : List Node) (cs : List Node) : Option (List Node × List Node) :=
  if off ≤ cs.length then some (cs.take off ++ ns ++ cs.drop off, []) else none

/-- Modelled from the spec: take a range of children out of an element. -/
def removeList (off k : Nat) (cs : List Node) : Option (List Node × List Node) :=
  if off + k ≤ cs.length then
    some (cs.take off ++ cs.drop (off + k), (cs.drop off).take k)
  else none

/-- Modelled from the spec: the atomic operation variants the split/merge pair
needs — insert, move (with its sticky flag), remove (a move to the graveyard)
and reinsert (a move back out of the graveyard).  Remove and reinsert are
move-family operations and carry the sticky flag as well. -/
inductive Operation where
  | insert (position : Position) (nodes : List Node) (baseVersion : Nat)
  | move (sourcePosition : Position) (howMany : Nat) (targetPosition : Position) (isSticky : Bool) (baseVersion : Nat)
  | remove (sourcePosition : Position) (howMany : Nat) (isSticky : Bool) (baseVersion : Nat)
  | reinsert (howMany : Nat) (targetPosition : Position) (isSticky : Bool) (baseVersion : Nat)

/-- Modelled from the spec: the document version an operation expects. -/
def Operation.baseVersion : Operation → Nat
  | Operation.insert _ _ v => v
  | Operation.move _ _ _ _ v => v
  | Operation.remove _ _ _ v => v
  | Operation.reinsert _ _ _ v => v

/-- Modelled from the spec: the sticky flag of a move-family operation; an
insert operation has no such flag and reads as not sticky. -/
def Operation.isSticky : Operation → Bool
  | Operation.insert _ _ _ => false
  | Operation.move _ _ _ st _ => st
  | Operation.remove _ _ st _ => st
  | Operation.reinsert _ _ st _ => st

/-- Modelled from the spec: write the sticky flag of a move-family operation;
an insert operation is left unchanged. -/
def Operation.setSticky : Operation → Bool → Operation
  | Operation.insert p ns v, _ => Operation.insert p ns v
  | Operation.move s k t _ v, st => Operation.move s k t st v
  | Operation.remove p k _ v, st => Operation.remove p k st v
  | Operation.reinsert k t _ v, st => Operation.reinsert k t st v

/-- Modelled from the spec: the source position of a move-family operation
(none for an insert, and none for a reinsert, whose source lies in the
graveyard). -/
def Operation.sourcePosition : Operation → Option Position
  | Operation.move s _ _ _ _ => some s
  | Operation.remove p _ _ _ => some p
  | _ => none

/-- Modelled from the spec: rewrite the base version of an operation. -/
def Operation.withBase : Operation → Nat → Operation
  | Operation.insert p ns _, v => Operation.insert p ns v
  | Operation.move s k t st _, v => Operation.move s k t st v
  | Operation.remove p k st _, v => Operation.remove p k st v
  | Operation.reinsert k t st _, v => Operation.reinsert k t st v

/-- Modelled from the spec: each operation is invertible — an insert reverses
to a remove of the inserted nodes, a move to the move back, a remove to the
reinsertion of the removed nodes, a reinsert to their removal.  The inverse
expects the version left by the operation it undoes. -/
def Operation.getReversed : Operation → Operation
  | Operation.insert p ns v => Operation.remove p ns.length false (v + 1)
  | Operation.move s k t st v => Operation.move t k s st (v + 1)
  | Operation.remove p k st v => Operation.reinsert k p st (v + 1)
  | Operation.reinsert k t st v => Operation.remove t k st (v + 1)

/-- Delta variant identities taking part in the split/merge pairing. -/
inductive DeltaClass where
  | delta
  | splitDelta
  | mergeDelta

/-- A delta: a variant identity and an ordered operation sequence
(insertion order = execution order). -/
structure Delta where
  klass : DeltaClass
  operations : List Operation

/-- Modelled from the spec: give consecutive base versions to a reversed
operation sequence, starting right after the version left by the original
delta, so the reversed delta is usable for undo. -/
def rebaseFrom : Nat → List Operation → List Operation
  | _, [] => []
  | v, op :: rest => op.withBase v :: rebaseFrom (v + 1) rest

/-- The declared reverse class of each variant; `SplitDelta` declares
`MergeDelta` (source lines 88-90) and, modelled from the spec, `MergeDelta`
declares `SplitDelta` back. -/
def reverseClassOf : DeltaClass → DeltaClass
  | DeltaClass.splitDelta => DeltaClass.mergeDelta
  | DeltaClass.mergeDelta => DeltaClass.splitDelta
  | DeltaClass.delta => DeltaClass.delta

/-- Modelled from the spec: the generic reversal of a delta inverts every
operation, flips their order, and re-bases them sequentially so that the
result applies to the document state the original delta left behind. -/
def Delta.getReversedGeneric (d : Delta) : Delta :=
  let ops := (d.operations.map Operation.getReversed).reverse
  let rebased :=
    match d.operations.getLast? with
    | none => ops
    | some lastOp => rebaseFrom (lastOp.baseVersion + 1) ops
  ⟨reverseClassOf d.klass, rebased⟩

/-- Force the sticky flag on the head of an operation sequence (the effect of
`delta.operations[0].isSticky = true` in the source). -/
def setFirstSticky : List Operation → List Operation
  | [] => []
  | op :: rest => op.setSticky true :: rest

/-- SplitDelta.getReversed (source lines 45-53): the generic reversal, then
`isSticky = true` forced onto the first operation when there is one. -/
def SplitDelta.getReversed (d : Delta) : Delta :=
  let r := Delta.getReversedGeneric d
  if 0 < r.operations.length then ⟨r.klass, setFirstSticky r.operations⟩ else r

/-- SplitDelta type tag (source lines 29-31). -/
def SplitDelta.type (_ : Delta) : String := "split"

/-- SplitDelta class name (source lines 95-97). -/
def SplitDelta.className : String := "engine.model.delta.SplitDelta"

/-- SplitDelta transformation priority (source lines 102-104). -/
def SplitDelta.priorityValue : Nat := 5

/-- SplitDelta._cloneOperation (source lines 70-72): `operations[0] || null`. -/
def SplitDelta.cloneOperation (d : Delta) : Option Operation := d.operations[0]?

/-- SplitDelta._moveOperation (source lines 81-83): `operations[1] || null`. -/
def SplitDelta.moveOperation (d : Delta) : Option Operation := d.operations[1]?

/-- SplitDelta.position (source lines 38-40):
`this._moveOperation ? this._moveOperation.sourcePosition : null`. -/
def SplitDelta.position (d : Delta) : Option Position :=
  match SplitDelta.moveOperation d with
  | some op => op.sourcePosition
  | none => none

/-- SplitDelta._reverseDeltaClass (source lines 88-90): `MergeDelta`,
independent of the instance. -/
def SplitDelta.reverseDeltaClass (_ : Delta) : DeltaClass := DeltaClass.mergeDelta

/-- Modelled from the spec: MergeDelta's anchor-position accessor; like the
split accessor it reads an operation of the delta and reports null for a
delta with too few operations (a delta with zero operations reports a
null/absent anchor position rather than erroring). -/
def MergeDelta.position (d : Delta) : Option Position :=
  match d.operations[1]? with
  | some op => op.sourcePosition
  | none => none

/-- Modelled from the spec: the document — a root tree, the graveyard holding
removed nodes, and a monotonically increasing version counter. -/
structure Document where
  root : Node
  graveyard : List Node
  version : Nat

/-- Modelled from the spec: apply one operation; fails (returns none) when the
operation's base version does not match the current version or when its
positions do not resolve.  Each successful application increments the
version. -/
def Document.applyOperation (doc : Document) (op : Operation) : Option Document :=
  if op.baseVersion = doc.version then
    match op with
    | Operation.insert pos ns _ =>
      match doc.root.editAt pos.path (insertList pos.offset ns) with
      | some r => some ⟨r.1, doc.graveyard, doc.version + 1⟩
      | none => none
    | Operation.move src k tgt _ _ =>
      match doc.root.editAt src.path (removeList src.offset k) with
      | some r =>
        match r.1.editAt tgt.path (insertList tgt.offset r.2) with
        | some r2 => some ⟨r2.1, doc.graveyard, doc.version + 1⟩
        | none => none
      | none => none
    | Operation.remove pos k _ _ =>
      match doc.root.editAt pos.path (removeList pos.offset k) with
      | some r => some ⟨r.1, doc.graveyard ++ r.2, doc.version + 1⟩
      | none => none
    | Operation.reinsert k tgt _ _ =>
      if k ≤ doc.graveyard.length then
        match doc.root.editAt tgt.path (insertList tgt.offset (doc.graveyard.drop (doc.graveyard.length - k))) with
        | some r => some ⟨r.1, doc.graveyard.take (doc.graveyard.length - k), doc.version + 1⟩
        | none => none
      else none
  else none

/-- Apply a list of operations in order, failing if any application fails. -/
def applyOps : Document → List Operation → Option Document
  | doc, [] => some doc
  | doc, op :: rest =>
    match doc.applyOperation op with
    | some doc1 => applyOps doc1 rest
    | none => none

/-- Apply all operations of a delta in order. -/
def Document.applyDelta (doc : Document) (d : Delta) : Option Document :=
  applyOps doc d.operations

/-- Modelled from the spec: a batch owns the deltas created through it. -/
structure Batch where
  deltas : List Delta

/-- Modelled from the spec: Batch#addDelta appends the delta to the batch. -/
def Batch.withDelta (b : Batch) (d : Delta) : Batch :=
  ⟨b.deltas ++ [d]⟩

/-- Outcome of the registered split method: the document and batch after the
call, and either the value the method returned (the batch itself, or — were
the code to do so — a delta) or the error it threw. -/
structure SplitOutcome where
  doc : Document
  batch : Batch
  result : Except String (Batch ⊕ Delta)

/-- Error message thrown on a root split (source line 129). -/
def rootSplitMessage : String := "batch-split-root: Root element can not be split."

/-- The registered `split` batch method (source lines 117-155): create an
empty SplitDelta and add it to the batch; refuse to split a parentless
(root) element; otherwise build an empty copy of the split element carrying
its name and attributes, insert it right after the split element at the
current version, apply, then move the children from the split offset to the
end into the copy at the next version with the sticky flag set, apply, and
return the batch (`return this`). -/
def Batch.split (b : Batch) (doc : Document) (position : Position) : SplitOutcome :=
  let delta0 : Delta := ⟨DeltaClass.splitDelta, []⟩
  match doc.root.get? position.path with
  | some (Node.element nm attrs children) =>
    if position.path.isEmpty then
      ⟨doc, b.withDelta delta0, Except.error rootSplitMessage⟩
    else
      let q := position.path.dropLast
      let j := position.path.getLastD 0
      let copy := Node.element nm attrs []
      let insert := Operation.insert ⟨q, j + 1⟩ [copy] doc.version
      let delta1 : Delta := ⟨DeltaClass.splitDelta, [insert]⟩
      match doc.applyOperation insert with
      | none => ⟨doc, b.withDelta delta1, Except.error "model-apply-failed"⟩
      | some doc1 =>
        let move := Operation.move position (children.length - position.offset)
          ⟨q ++ [j + 1], 0⟩ true doc1.version
        let delta2 : Delta := ⟨DeltaClass.splitDelta, [insert, move]⟩
        match doc1.applyOperation move with
        | none => ⟨doc1, b.withDelta delta2, Except.error "model-apply-failed"⟩
        | some doc2 => ⟨doc2, b.withDelta delta2, Except.ok (Sum.inl (b.withDelta delta2))⟩
  | _ => ⟨doc, b.withDelta delta0, Except.error "model-invalid-position"⟩

/-- Checks whether a split result handed a delta back as the returned value. -/
def returnedDelta : Except String (Batch ⊕ Delta) → Bool
  | Except.ok (Sum.inr _) => true
  | _ => false

/-- Concrete scenario element: a paragraph with three leaf children. -/
def pElem : Node := Node.element "p" [] [Node.leaf 0, Node.leaf 1, Node.leaf 2]

/-- Concrete scenario document: a root holding the paragraph, at version 0. -/
def doc0 : Document := ⟨Node.element "main" [] [pElem], [], 0⟩

/-- Concrete empty batch. -/
def batch0 : Batch := ⟨[]⟩

/-- Concrete position: inside the paragraph (child 0 of the root), offset 1. -/
def pos0 : Position := ⟨[0], 1⟩

/-- Concrete delta with a single (insert) operation. -/
def d1 : Delta := ⟨DeltaClass.splitDelta, [Operation.insert ⟨[], 0⟩ [] 0]⟩

/-- Concrete two-operation split-shaped delta whose move operation is NOT
sticky. -/
def d2 : Delta :=
  ⟨DeltaClass.splitDelta,
   [Operation.insert ⟨[0], 1⟩ [Node.leaf 9] 4,
    Operation.move ⟨[0], 1⟩ 2 ⟨[1], 0⟩ false 5]⟩

/-- Concrete delta with zero operations. -/
def d0 : Delta := ⟨DeltaClass.splitDelta, []⟩

/-- Auxiliary: an index with a value is in bounds. -/
theorem listAux_lt {α : Type} (l : List α) (i : Nat) (x : α) (h : l[i]? = some x) :
    i < l.length := by
  induction l generalizing i with
  | nil => simp at h
  | cons a t ih =>
    cases i with
    | zero => simp only [List.length_cons]; omega
    | succ n =>
      simp only [List.getElem?_cons_succ] at h
      have := ih n h
      simp only [List.length_cons]
      omega

/-- Auxiliary: reading back an index just written. -/
theorem listAux_get_set {α : Type} (l : List α) (i : Nat) (y : α) (h : i < l.length) :
    (l.set i y)[i]? = some y := by
  induction l generalizing i with
  | nil => simp at h
  | cons a t ih =>
    cases i with
    | zero => simp
    | succ n =>
      simp only [List.set_cons_succ, List.getElem?_cons_succ]
      exact ih n (by simp only [List.length_cons] at h; omega)

/-- Auxiliary: writing the value already present changes nothing. -/
theorem listAux_set_id {α : Type} (l : List α) (i : Nat) (x : α) (h : l[i]? = some x) :
    l.set i x = l := by
  induction l generalizing i with
  | nil => simp at h
  | cons a t ih =>
    cases i with
    | zero =>
      simp only [List.getElem?_cons_zero, Option.some.injEq] at h
      rw [List.set_cons_zero, h]
    | succ n =>
      simp only [List.getElem?_cons_succ] at h
      rw [List.set_cons_succ, ih n h]

/-- Auxiliary: indexing past a prefix. -/
theorem listAux_get_add {α : Type} (A C : List α) (i : Nat) :
    (A ++ C)[A.length + i]? = C[i]? := by
  induction A with
  | nil => simp
  | cons a A' ih =>
    have e : (a :: A').length + i = (A'.length + i) + 1 := by
      simp only [List.length_cons]; omega
    rw [List.cons_append, e, List.getElem?_cons_succ, ih]

/-- Auxiliary: writing past a prefix. -/
theorem listAux_set_add {α : Type} (A C : List α) (i : Nat) (y : α) :
    (A ++ C).set (A.length + i) y = A ++ C.set i y := by
  induction A with
  | nil => simp
  | cons a A' ih =>
    have e : (a :: A').length + i = (A'.length + i) + 1 := by
      simp only [List.length_cons]; omega
    rw [List.cons_append, e, List.set_cons_succ, ih, List.cons_append]

/-- Auxiliary: taking past a prefix. -/
theorem listAux_take_add {α : Type} (A C : List α) (i : Nat) :
    (A ++ C).take (A.length + i) = A ++ C.take i := by
  induction A with
  | nil => simp
  | cons a A' ih =>
    have e : (a :: A').length + i = (A'.length + i) + 1 := by
      simp only [List.length_cons]; omega
    rw [List.cons_append, e, List.take_succ_cons, ih, List.cons_append]

/-- Auxiliary: dropping past a prefix. -/
theorem listAux_drop_add {α : Type} (A C : List α) (i : Nat) :
    (A ++ C).drop (A.length + i) = C.drop i := by
  induction A with
  | nil => simp
  | cons a A' ih =>
    have e : (a :: A').length + i = (A'.length + i) + 1 := by
      simp only [List.length_cons]; omega
    rw [List.cons_append, e, List.drop_succ_cons, ih]

/-- Auxiliary: split a list at an index holding a known value. -/
theorem listAux_decomp {α : Type} (l : List α) (j : Nat) (x : α) (h : l[j]? = some x) :
    ∃ A B, l = A ++ x :: B ∧ A.length = j := by
  induction l generalizing j with
  | nil => simp at h
  | cons a t ih =>
    cases j with
    | zero =>
      simp only [List.getElem?_cons_zero, Option.some.injEq] at h
      exact ⟨[], t, by rw [h, List.nil_append], rfl⟩
    | succ n =>
      simp only [List.getElem?_cons_succ] at h
      obtain ⟨A, B, hl, hA⟩ := ih n h
      exact ⟨a :: A, B, by rw [hl, List.cons_append], by simp [List.length_cons, hA]⟩

/-- Auxiliary: a list ending in an element is not empty. -/
theorem listAux_concat_isEmpty {α : Type} (q : List α) (j : α) : (q ++ [j]).isEmpty = false := by
  cases q <;> rfl

/-- Auxiliary: resolving one step into an element. -/
theorem get?_cons (nm : String) (a : List (String × String)) (cs : List Node) (i : Nat)
    (p : List Nat) (c : Node) (hc : cs[i]? = some c) :
    (Node.element nm a cs).get? (i :: p) = c.get? p := by
  simp [Node.get?, hc]

/-- Auxiliary: editing one step into an element. -/
theorem editAt_cons (nm : String) (a : List (String × String)) (cs : List Node) (i : Nat)
    (p : List Nat) (f : List Node → Option (List Node × List Node)) (c c' : Node)
    (out : List Node) (hc : cs[i]? = some c) (h : c.editAt p f = some (c', out)) :
    (Node.element nm a cs).editAt (i :: p) f =
      some (Node.element nm a (cs.set i c'), out) := by
  simp [Node.editAt, hc, h]

/-- Auxiliary: editing the children of the element an empty path addresses. -/
theorem editAt_nil (nm : String) (a : List (String × String)) (cs cs' out : List Node)
    (f : List Node → Option (List Node × List Node)) (h : f cs = some (cs', out)) :
    (Node.element nm a cs).editAt [] f = some (Node.element nm a cs', out) := by
  simp [Node.editAt, h]

/-- Auxiliary: inserting one node right after a distinguished child. -/
theorem insertList_mid (A B : List Node) (x copy : Node) :
    insertList (A.length + 1) [copy] (A ++ x :: B) = some (A ++ x :: copy :: B, []) := by
  unfold insertList
  rw [if_pos (by simp only [List.length_append, List.length_cons]; omega)]
  have h1 : (A ++ x :: B).take (A.length + 1) = A ++ [x] :=
    listAux_take_add A (x :: B) 1
  have h2 : (A ++ x :: B).drop (A.length + 1) = B :=
    listAux_drop_add A (x :: B) 1
  rw [h1, h2]
  simp

/-- Auxiliary: removing the whole tail of a child list from a given offset. -/
theorem removeList_tail (off : Nat) (cs : List Node) (h : off ≤ cs.length) :
    removeList off (cs.length - off) cs = some (cs.take off, cs.drop off) := by
  unfold removeList
  have he : off + (cs.length - off) = cs.length := by omega
  rw [he, if_pos (le_refl _), List.drop_length]
  have ht : (cs.drop off).take (cs.length - off) = cs.drop off := by
    have := List.take_length (cs.drop off)
    rw [List.length_drop] at this
    exact this
  rw [ht]
  simp

/-- Auxiliary: removing all children. -/
theorem removeList_all (l : List Node) : removeList 0 l.length l = some ([], l) := by
  unfold removeList
  rw [if_pos (by omega)]
  simp [List.drop_length]

/-- Auxiliary: inserting into an element with no children. -/
theorem insertList_nil (ns : List Node) : insertList 0 ns [] = some (ns, []) := by
  unfold insertList
  simp

/-- Auxiliary: putting a removed tail back restores the child list. -/
theorem insertList_restore (off : Nat) (cs : List Node) (h : off ≤ cs.length) :
    insertList off (cs.drop off) (cs.take off) = some (cs, []) := by
  unfold insertList
  have hlen : (cs.take off).length = off := by rw [List.length_take]; omega
  rw [if_pos (by rw [hlen])]
  have h1 : (cs.take off).take off = cs.take off := by
    rw [List.take_take, Nat.min_self]
  have h2 : (cs.take off).drop off = [] := by
    have := List.drop_length (cs.take off)
    rw [hlen] at this
    exact this
  rw [h1, h2]
  simp

/-- Auxiliary: removing the single node right after a distinguished child. -/
theorem removeList_mid (A B : List Node) (x y : Node) :
    removeList (A.length + 1) 1 (A ++ x :: y :: B) = some (A ++ x :: B, [y]) := by
  unfold removeList
  rw [if_pos (by simp only [List.length_append, List.length_cons]; omega)]
  have h1 : (A ++ x :: y :: B).take (A.length + 1) = A ++ [x] :=
    listAux_take_add A (x :: y :: B) 1
  have h2 : (A ++ x :: y :: B).drop (A.length + 1 + 1) = B :=
    listAux_drop_add A (x :: y :: B) 2
  have h3 : (A ++ x :: y :: B).drop (A.length + 1) = y :: B :=
    listAux_drop_add A (x :: y :: B) 1
  rw [h1, h2, h3]
  simp

/-- Auxiliary: the distinguished child after a prefix. -/
theorem getAt_mid0 (A B : List Node) (x : Node) : (A ++ x :: B)[A.length]? = some x := by
  have h := listAux_get_add A (x :: B) 0
  simp only [Nat.add_zero] at h
  rw [h]
  simp

/-- Auxiliary: the child right after the distinguished one. -/
theorem getAt_mid1 (A B : List Node) (x y : Node) :
    (A ++ x :: y :: B)[A.length + 1]? = some y := by
  rw [listAux_get_add A (x :: y :: B) 1]
  simp

/-- Auxiliary: overwrite the distinguished child after a prefix. -/
theorem setAt_mid0 (A B : List Node) (x z : Node) :
    (A ++ x :: B).set A.length z = A ++ z :: B :=
  listAux_set_add A (x :: B) 0 z

/-- Auxiliary: overwrite the child right after the distinguished one. -/
theorem setAt_mid1 (A B : List Node) (x y z : Node) :
    (A ++ x :: y :: B).set (A.length + 1) z = A ++ x :: z :: B :=
  listAux_set_add A (x :: y :: B) 1 z
/-- Core tree lemma: splitting the element addressed by `q ++ [j]` at offset
`off` (insert an empty copy right after it, then move its tail into the copy)
succeeds, produces the two expected siblings, and the two inverse edits (move
back, then take the emptied copy out) restore the original tree exactly. -/
theorem split_chain (q : List Nat) :
    ∀ (n : Node) (j off : Nat) (nmE : String) (aE : List (String × String)) (cs : List Node),
      n.get? (q ++ [j]) = some (Node.element nmE aE cs) → off ≤ cs.length →
      ∃ n1 n1' n2 n3' n3,
        n.editAt q (insertList (j + 1) [Node.element nmE aE []]) = some (n1, []) ∧
        n1.editAt (q ++ [j]) (removeList off (cs.length - off)) = some (n1', cs.drop off) ∧
        n1'.editAt (q ++ [j + 1]) (insertList 0 (cs.drop off)) = some (n2, []) ∧
        n2.get? (q ++ [j]) = some (Node.element nmE aE (cs.take off)) ∧
        n2.get? (q ++ [j + 1]) = some (Node.element nmE aE (cs.drop off)) ∧
        n2.editAt (q ++ [j + 1]) (removeList 0 (cs.length - off)) = some (n3', cs.drop off) ∧
        n3'.editAt (q ++ [j]) (insertList off (cs.drop off)) = some (n3, []) ∧
        n3.editAt q (removeList (j + 1) 1) = some (n, [Node.element nmE aE []]) := by
  induction q with
  | nil =>
    intro n j off nmE aE cs hres hoff
    rw [List.nil_append] at hres
    cases n with
    | leaf id => simp [Node.get?] at hres
    | element nm0 a0 L =>
      cases hL : L[j]? with
      | none => simp [Node.get?, hL] at hres
      | some c =>
        rw [get?_cons nm0 a0 L j [] c hL] at hres
        simp only [Node.get?, Option.some.injEq] at hres
        subst hres
        obtain ⟨A, B, hdec, hA⟩ := listAux_decomp L j _ hL
        subst hA
        subst hdec
        refine ⟨Node.element nm0 a0 (A ++ Node.element nmE aE cs :: Node.element nmE aE [] :: B),
          Node.element nm0 a0 (A ++ Node.element nmE aE (cs.take off) :: Node.element nmE aE [] :: B),
          Node.element nm0 a0 (A ++ Node.element nmE aE (cs.take off) :: Node.element nmE aE (cs.drop off) :: B),
          Node.element nm0 a0 (A ++ Node.element nmE aE (cs.take off) :: Node.element nmE aE [] :: B),
          Node.element nm0 a0 (A ++ Node.element nmE aE cs :: Node.element nmE aE [] :: B),
          ?_, ?_, ?_, ?_, ?_, ?_, ?_, ?_⟩
        · exact editAt_nil nm0 a0 _ _ _ _ (insertList_mid A B _ _)
        · rw [List.nil_append]
          have hin : (Node.element nmE aE cs).editAt [] (removeList off (cs.length - off)) =
              some (Node.element nmE aE (cs.take off), cs.drop off) :=
            editAt_nil nmE aE _ _ _ _ (removeList_tail off cs hoff)
          have h := editAt_cons nm0 a0 _ A.length [] _ _ _ _
            (getAt_mid0 A (Node.element nmE aE [] :: B) (Node.element nmE aE cs)) hin
          rw [setAt_mid0] at h
          exact h
        · rw [List.nil_append]
          have hin : (Node.element nmE aE []).editAt [] (insertList 0 (cs.drop off)) =
              some (Node.element nmE aE (cs.drop off), []) :=
            editAt_nil nmE aE _ _ _ _ (insertList_nil (cs.drop off))
          have h := editAt_cons nm0 a0 _ (A.length + 1) [] _ _ _ _
            (getAt_mid1 A B (Node.element nmE aE (cs.take off)) (Node.element nmE aE [])) hin
          rw [setAt_mid1] at h
          exact h
        · rw [List.nil_append]
          rw [get?_cons nm0 a0 _ A.length [] _
            (getAt_mid0 A (Node.element nmE aE (cs.drop off) :: B) (Node.element nmE aE (cs.take off)))]
          rfl
        · rw [List.nil_append]
          rw [get?_cons nm0 a0 _ (A.length + 1) [] _
            (getAt_mid1 A B (Node.element nmE aE (cs.take off)) (Node.element nmE aE (cs.drop off)))]
          rfl
        · rw [List.nil_append]
          have hrem : removeList 0 (cs.length - off) (cs.drop off) = some ([], cs.drop off) := by
            have hk : cs.length - off = (cs.drop off).length := (List.length_drop off cs).symm
            rw [hk]
            exact removeList_all (cs.drop off)
          have hin : (Node.element nmE aE (cs.drop off)).editAt [] (removeList 0 (cs.length - off)) =
              some (Node.element nmE aE [], cs.drop off) :=
            editAt_nil nmE aE _ _ _ _ hrem
          have h := editAt_cons nm0 a0 _ (A.length + 1) [] _ _ _ _
            (getAt_mid1 A B (Node.element nmE aE (cs.take off)) (Node.element nmE aE (cs.drop off))) hin
          rw [setAt_mid1] at h
          exact h
        · rw [List.nil_append]
          have hin : (Node.element nmE aE (cs.take off)).editAt [] (insertList off (cs.drop off)) =
              some (Node.element nmE aE cs, []) :=
            editAt_nil nmE aE _ _ _ _ (insertList_restore off cs hoff)
          have h := editAt_cons nm0 a0 _ A.length [] _ _ _ _
            (getAt_mid0 A (Node.element nmE aE [] :: B) (Node.element nmE aE (cs.take off))) hin
          rw [setAt_mid0] at h
          exact h
        · exact editAt_nil nm0 a0 _ _ _ _ (removeList_mid A B _ _)
  | cons i q' ih =>
    intro n j off nmE aE cs hres hoff
    cases n with
    | leaf id => simp [List.cons_append, Node.get?] at hres
    | element nm0 a0 cs0 =>
      rw [List.cons_append] at hres
      cases hc : cs0[i]? with
      | none => simp [Node.get?, hc] at hres
      | some c =>
        rw [get?_cons nm0 a0 cs0 i (q' ++ [j]) c hc] at hres
        obtain ⟨c1, c1', c2, c3', c3, h1, h2, h3, h4, h5, h6, h7, h8⟩ :=
          ih c j off nmE aE cs hres hoff
        have hlt : i < cs0.length := listAux_lt cs0 i c hc
        refine ⟨Node.element nm0 a0 (cs0.set i c1), Node.element nm0 a0 (cs0.set i c1'),
          Node.element nm0 a0 (cs0.set i c2), Node.element nm0 a0 (cs0.set i c3'),
          Node.element nm0 a0 (cs0.set i c3), ?_, ?_, ?_, ?_, ?_, ?_, ?_, ?_⟩
        · exact editAt_cons nm0 a0 cs0 i q' _ c c1 [] hc h1
        · rw [List.cons_append]
          have h := editAt_cons nm0 a0 (cs0.set i c1) i (q' ++ [j]) _ c1 c1' (cs.drop off)
            (listAux_get_set cs0 i c1 hlt) h2
          rw [List.set_set] at h
          exact h
        · rw [List.cons_append]
          have h := editAt_cons nm0 a0 (cs0.set i c1') i (q' ++ [j + 1]) _ c1' c2 []
            (listAux_get_set cs0 i c1' hlt) h3
          rw [List.set_set] at h
          exact h
        · rw [List.cons_append]
          rw [get?_cons nm0 a0 (cs0.set i c2) i (q' ++ [j]) c2 (listAux_get_set cs0 i c2 hlt)]
          exact h4
        · rw [List.cons_append]
          rw [get?_cons nm0 a0 (cs0.set i c2) i (q' ++ [j + 1]) c2 (listAux_get_set cs0 i c2 hlt)]
          exact h5
        · rw [List.cons_append]
          have h := editAt_cons nm0 a0 (cs0.set i c2) i (q' ++ [j + 1]) _ c2 c3' (cs.drop off)
            (listAux_get_set cs0 i c2 hlt) h6
          rw [List.set_set] at h
          exact h
        · rw [List.cons_append]
          have h := editAt_cons nm0 a0 (cs0.set i c3') i (q' ++ [j]) _ c3' c3 []
            (listAux_get_set cs0 i c3' hlt) h7
          rw [List.set_set] at h
          exact h
        · have h := editAt_cons nm0 a0 (cs0.set i c3) i q' _ c3 c [Node.element nmE aE []]
            (listAux_get_set cs0 i c3 hlt) h8
          rw [List.set_set, listAux_set_id cs0 i c hc] at h
          exact h

/-- Bridge lemma: on a resolvable non-root position, the split method applies
its two operations in sequence, returns the batch extended with the
two-operation split delta, leaves the two expected siblings in the tree, and
the reversed delta applies cleanly and restores the original root (the
emptied copy moving to the graveyard). -/
theorem split_main (doc : Document) (b : Batch) (q : List Nat) (j off : Nat)
    (nmE : String) (aE : List (String × String)) (cs : List Node)
    (hres : doc.root.get? (q ++ [j]) = some (Node.element nmE aE cs))
    (hoff : off ≤ cs.length) :
    ∃ n1 n2,
      doc.applyOperation (Operation.insert ⟨q, j + 1⟩ [Node.element nmE aE []] doc.version) =
        some ⟨n1, doc.graveyard, doc.version + 1⟩ ∧
      Document.applyOperation ⟨n1, doc.graveyard, doc.version + 1⟩
        (Operation.move ⟨q ++ [j], off⟩ (cs.length - off) ⟨q ++ [j + 1], 0⟩ true (doc.version + 1)) =
        some ⟨n2, doc.graveyard, doc.version + 2⟩ ∧
      Batch.split b doc ⟨q ++ [j], off⟩ =
        ⟨⟨n2, doc.graveyard, doc.version + 2⟩,
         b.withDelta ⟨DeltaClass.splitDelta,
           [Operation.insert ⟨q, j + 1⟩ [Node.element nmE aE []] doc.version,
            Operation.move ⟨q ++ [j], off⟩ (cs.length - off) ⟨q ++ [j + 1], 0⟩ true (doc.version + 1)]⟩,
         Except.ok (Sum.inl (b.withDelta ⟨DeltaClass.splitDelta,
           [Operation.insert ⟨q, j + 1⟩ [Node.element nmE aE []] doc.version,
            Operation.move ⟨q ++ [j], off⟩ (cs.length - off) ⟨q ++ [j + 1], 0⟩ true (doc.version + 1)]⟩))⟩ ∧
      n2.get? (q ++ [j]) = some (Node.element nmE aE (cs.take off)) ∧
      n2.get? (q ++ [j + 1]) = some (Node.element nmE aE (cs.drop off)) ∧
      Document.applyDelta ⟨n2, doc.graveyard, doc.version + 2⟩
        (SplitDelta.getReversed ⟨DeltaClass.splitDelta,
          [Operation.insert ⟨q, j + 1⟩ [Node.element nmE aE []] doc.version,
           Operation.move ⟨q ++ [j], off⟩ (cs.length - off) ⟨q ++ [j + 1], 0⟩ true (doc.version + 1)]⟩) =
        some ⟨doc.root, doc.graveyard ++ [Node.element nmE aE []], doc.version + 4⟩ := by
  obtain ⟨n1, n1', n2, n3', n3, h1, h2, h3, h4, h5, h6, h7, h8⟩ :=
    split_chain q doc.root j off nmE aE cs hres hoff
  have ha : doc.applyOperation (Operation.insert ⟨q, j + 1⟩ [Node.element nmE aE []] doc.version) =
      some ⟨n1, doc.graveyard, doc.version + 1⟩ := by
    simp [Document.applyOperation, Operation.baseVersion, h1]
  have hb : Document.applyOperation ⟨n1, doc.graveyard, doc.version + 1⟩
      (Operation.move ⟨q ++ [j], off⟩ (cs.length - off) ⟨q ++ [j + 1], 0⟩ true (doc.version + 1)) =
      some ⟨n2, doc.graveyard, doc.version + 2⟩ := by
    simp [Document.applyOperation, Operation.baseVersion, h2, h3]
  refine ⟨n1, n2, ha, hb, ?_, h4, h5, ?_⟩
  · simp [Batch.split, hres, listAux_concat_isEmpty, List.dropLast_concat,
      List.getLastD_concat, ha, hb]
  · have hrev : SplitDelta.getReversed ⟨DeltaClass.splitDelta,
        [Operation.insert ⟨q, j + 1⟩ [Node.element nmE aE []] doc.version,
         Operation.move ⟨q ++ [j], off⟩ (cs.length - off) ⟨q ++ [j + 1], 0⟩ true (doc.version + 1)]⟩ =
        ⟨DeltaClass.mergeDelta,
         [Operation.move ⟨q ++ [j + 1], 0⟩ (cs.length - off) ⟨q ++ [j], off⟩ true (doc.version + 2),
          Operation.remove ⟨q, j + 1⟩ 1 false (doc.version + 3)]⟩ := rfl
    rw [hrev]
    simp [Document.applyDelta, applyOps, Document.applyOperation, Operation.baseVersion,
      h6, h7, h8]

/-- Auxiliary: inverses of operations are move-family, so forcing the sticky
flag on a (re-based) inverse really sets it. -/
theorem reversed_setSticky_isSticky (op : Operation) (v : Nat) :
    (((op.getReversed).withBase v).setSticky true).isSticky = true := by
  cases op <;> rfl

/-- Auxiliary: on a (re-based) inverse, forcing the sticky flag and then
restoring the recorded flag gives the operation back — the flag is the only
field the forcing touches. -/
theorem reversed_setSticky_restore (op : Operation) (v : Nat) :
    (((op.getReversed).withBase v).setSticky true).setSticky
        (((op.getReversed).withBase v).isSticky) =
      (op.getReversed).withBase v := by
  cases op <;> rfl

/-- Auxiliary: for a delta with at least one operation, the generic reversal
starts with the re-based inverse of the delta's last operation, and the split
reversal is the same sequence with the sticky flag forced on that head. -/
theorem split_getReversed_decomp (d : Delta) (h : d.operations ≠ []) :
    ∃ lastOp rest,
      d.operations.getLast? = some lastOp ∧
      (Delta.getReversedGeneric d).operations =
        (lastOp.getReversed).withBase (lastOp.baseVersion + 1) :: rest ∧
      (SplitDelta.getReversed d).operations =
        ((lastOp.getReversed).withBase (lastOp.baseVersion + 1)).setSticky true :: rest ∧
      (SplitDelta.getReversed d).klass = reverseClassOf d.klass := by
  rcases List.eq_nil_or_concat d.operations with h0 | ⟨init, lastOp, hsplit⟩
  · exact absurd h0 h
  rw [List.concat_eq_append] at hsplit
  have hmap : d.operations.map Operation.getReversed =
      init.map Operation.getReversed ++ [lastOp.getReversed] := by
    rw [hsplit, List.map_append]
    rfl
  have hrevops : (d.operations.map Operation.getReversed).reverse =
      lastOp.getReversed :: (init.map Operation.getReversed).reverse := by
    rw [hmap, List.reverse_append]
    rfl
  have hlast : d.operations.getLast? = some lastOp := by
    rw [hsplit]
    exact List.getLast?_concat _
  have hgen : (Delta.getReversedGeneric d).operations =
      (lastOp.getReversed).withBase (lastOp.baseVersion + 1) ::
        rebaseFrom (lastOp.baseVersion + 1 + 1) (init.map Operation.getReversed).reverse := by
    simp only [Delta.getReversedGeneric, hlast, hrevops, rebaseFrom]
  have hsp : (SplitDelta.getReversed d).operations =
      ((lastOp.getReversed).withBase (lastOp.baseVersion + 1)).setSticky true ::
        rebaseFrom (lastOp.baseVersion + 1 + 1) (init.map Operation.getReversed).reverse := by
    simp only [SplitDelta.getReversed]
    rw [hgen]
    simp [setFirstSticky]
  have hkl : (SplitDelta.getReversed d).klass = reverseClassOf d.klass := by
    simp only [SplitDelta.getReversed]
    rw [hgen]
    simp [Delta.getReversedGeneric]
  exact ⟨lastOp, _, hlast, hgen, hsp, hkl⟩

/-- C1: for every element (addressed by a non-root path `q ++ [j]`) with at
least one child, and any valid split offset inside it, the split yields the
two sibling elements sharing the original name and attributes and holding
the head and tail of the child list, and applying the delta produced by
`SplitDelta.getReversed` to the post-split document restores the original
root tree — child sequence, name and attributes — exactly. -/
theorem splitdelta_C1_round_trip (doc : Document) (b : Batch) (q : List Nat) (j off : Nat)
    (nmE : String) (aE : List (String × String)) (cs : List Node)
    (hres : doc.root.get? (q ++ [j]) = some (Node.element nmE aE cs))
    (_hcs : cs ≠ []) (hoff : off ≤ cs.length) :
    ∃ d doc4,
      (Batch.split b doc ⟨q ++ [j], off⟩).batch.deltas.getLast? = some d ∧
      (Batch.split b doc ⟨q ++ [j], off⟩).doc.root.get? (q ++ [j]) =
        some (Node.element nmE aE (cs.take off)) ∧
      (Batch.split b doc ⟨q ++ [j], off⟩).doc.root.get? (q ++ [j + 1]) =
        some (Node.element nmE aE (cs.drop off)) ∧
      (Batch.split b doc ⟨q ++ [j], off⟩).doc.applyDelta (SplitDelta.getReversed d) =
        some doc4 ∧
      doc4.root = doc.root := by
  obtain ⟨n1, n2, ha, hb, hc, hd, he, hf⟩ := split_main doc b q j off nmE aE cs hres hoff
  refine ⟨⟨DeltaClass.splitDelta,
      [Operation.insert ⟨q, j + 1⟩ [Node.element nmE aE []] doc.version,
       Operation.move ⟨q ++ [j], off⟩ (cs.length - off) ⟨q ++ [j + 1], 0⟩ true (doc.version + 1)]⟩,
    ⟨doc.root, doc.graveyard ++ [Node.element nmE aE []], doc.version + 4⟩,
    ?_, ?_, ?_, ?_, rfl⟩
  · rw [hc]
    exact List.getLast?_concat _
  · rw [hc]
    exact hd
  · rw [hc]
    exact he
  · rw [hc]
    exact hf

/-- Witness for C1: the concrete scenario — a root holding `<p>[a,b,c]</p>`,
split inside the paragraph at offset 1, yielding `<p>[a]</p><p>[b,c]</p>`,
and the reversed delta restoring the original tree. -/
theorem splitdelta_C1_witness :
    ∃ d doc4,
      (Batch.split batch0 doc0 ⟨[0], 1⟩).batch.deltas.getLast? = some d ∧
      (Batch.split batch0 doc0 ⟨[0], 1⟩).doc.root.get? [0] =
        some (Node.element "p" [] [Node.leaf 0]) ∧
      (Batch.split batch0 doc0 ⟨[0], 1⟩).doc.root.get? [1] =
        some (Node.element "p" [] [Node.leaf 1, Node.leaf 2]) ∧
      (Batch.split batch0 doc0 ⟨[0], 1⟩).doc.applyDelta (SplitDelta.getReversed d) =
        some doc4 ∧
      doc4.root = doc0.root :=
  splitdelta_C1_round_trip doc0 batch0 [] 0 1 "p" []
    [Node.leaf 0, Node.leaf 1, Node.leaf 2] rfl
    (fun h => List.noConfusion h) (by decide)

/-- C2: a split requested at a position whose parent element is the root
(empty path: the parent has no parent) raises the `batch-split-root` error,
mutates nothing in the document, and the only delta registered on the batch
is empty — no partially built delta exists. -/
theorem splitdelta_C2_root_guard (doc : Document) (b : Batch) (off : Nat)
    (nm : String) (a : List (String × String)) (cs : List Node)
    (hroot : doc.root = Node.element nm a cs) :
    (Batch.split b doc ⟨[], off⟩).doc = doc ∧
    (Batch.split b doc ⟨[], off⟩).result = Except.error rootSplitMessage ∧
    (Batch.split b doc ⟨[], off⟩).batch.deltas = b.deltas ++ [⟨DeltaClass.splitDelta, []⟩] := by
  refine ⟨?_, ?_, ?_⟩ <;>
    simp [Batch.split, hroot, Node.get?, Batch.withDelta]

/-- Witness for C2: splitting the concrete document at a root position. -/
theorem splitdelta_C2_witness :
    (Batch.split batch0 doc0 ⟨[], 0⟩).doc = doc0 ∧
    (Batch.split batch0 doc0 ⟨[], 0⟩).result = Except.error rootSplitMessage ∧
    (Batch.split batch0 doc0 ⟨[], 0⟩).batch.deltas =
      batch0.deltas ++ [⟨DeltaClass.splitDelta, []⟩] :=
  splitdelta_C2_root_guard doc0 batch0 0 "main" [] [pElem] rfl

/-- C3: a split at a valid non-root position builds a SplitDelta holding
exactly two operations in construction order — first an insert placing a new
childless element with the split element's name and attributes immediately
after it, second a move relocating the child range from the split offset to
maxOffset to offset 0 of the copy. -/
theorem splitdelta_C3_two_operations (doc : Document) (b : Batch) (q : List Nat) (j off : Nat)
    (nmE : String) (aE : List (String × String)) (cs : List Node)
    (hres : doc.root.get? (q ++ [j]) = some (Node.element nmE aE cs))
    (hoff : off ≤ cs.length) :
    (Batch.split b doc ⟨q ++ [j], off⟩).batch.deltas.getLast? =
      some ⟨DeltaClass.splitDelta,
        [Operation.insert ⟨q, j + 1⟩ [Node.element nmE aE []] doc.version,
         Operation.move ⟨q ++ [j], off⟩ (cs.length - off) ⟨q ++ [j + 1], 0⟩ true
           (doc.version + 1)]⟩ := by
  obtain ⟨n1, n2, ha, hb, hc, hd, he, hf⟩ := split_main doc b q j off nmE aE cs hres hoff
  rw [hc]
  exact List.getLast?_concat _

/-- Witness for C3: the delta built for the concrete scenario. -/
theorem splitdelta_C3_witness :
    (Batch.split batch0 doc0 ⟨[0], 1⟩).batch.deltas.getLast? =
      some ⟨DeltaClass.splitDelta,
        [Operation.insert ⟨[], 1⟩ [Node.element "p" [] []] 0,
         Operation.move ⟨[0], 1⟩ 2 ⟨[1], 0⟩ true 1]⟩ :=
  splitdelta_C3_two_operations doc0 batch0 [] 0 1 "p" []
    [Node.leaf 0, Node.leaf 1, Node.leaf 2] rfl (by decide)

/-- C4: in the SplitDelta built by a split request, the insert operation
carries the document's version at construction time as base version, the
move operation carries the incremented version and `isSticky = true`, and
the final document equals the sequential application of the two operations —
each applied right after being appended. -/
theorem splitdelta_C4_versions (doc : Document) (b : Batch) (q : List Nat) (j off : Nat)
    (nmE : String) (aE : List (String × String)) (cs : List Node)
    (hres : doc.root.get? (q ++ [j]) = some (Node.element nmE aE cs))
    (hoff : off ≤ cs.length) :
    ∃ opI opM n1,
      (Batch.split b doc ⟨q ++ [j], off⟩).batch.deltas.getLast? =
        some ⟨DeltaClass.splitDelta, [opI, opM]⟩ ∧
      opI.baseVersion = doc.version ∧
      opM.baseVersion = doc.version + 1 ∧
      opM.isSticky = true ∧
      doc.applyOperation opI = some ⟨n1, doc.graveyard, doc.version + 1⟩ ∧
      Document.applyOperation ⟨n1, doc.graveyard, doc.version + 1⟩ opM =
        some (Batch.split b doc ⟨q ++ [j], off⟩).doc := by
  obtain ⟨n1, n2, ha, hb, hc, hd, he, hf⟩ := split_main doc b q j off nmE aE cs hres hoff
  refine ⟨Operation.insert ⟨q, j + 1⟩ [Node.element nmE aE []] doc.version,
    Operation.move ⟨q ++ [j], off⟩ (cs.length - off) ⟨q ++ [j + 1], 0⟩ true (doc.version + 1),
    n1, ?_, rfl, rfl, rfl, ha, ?_⟩
  · rw [hc]
    exact List.getLast?_concat _
  · rw [hc]
    exact hb

/-- Witness for C4: versions, stickiness and staged application in the
concrete scenario. -/
theorem splitdelta_C4_witness :
    ∃ opI opM n1,
      (Batch.split batch0 doc0 ⟨[0], 1⟩).batch.deltas.getLast? =
        some ⟨DeltaClass.splitDelta, [opI, opM]⟩ ∧
      opI.baseVersion = doc0.version ∧
      opM.baseVersion = doc0.version + 1 ∧
      opM.isSticky = true ∧
      doc0.applyOperation opI = some ⟨n1, doc0.graveyard, doc0.version + 1⟩ ∧
      Document.applyOperation ⟨n1, doc0.graveyard, doc0.version + 1⟩ opM =
        some (Batch.split batch0 doc0 ⟨[0], 1⟩).doc :=
  splitdelta_C4_versions doc0 batch0 [] 0 1 "p" []
    [Node.leaf 0, Node.leaf 1, Node.leaf 2] rfl (by decide)

/-- C5: reversing any SplitDelta with at least one operation yields a delta
whose first operation has `isSticky = true`, regardless of the stickiness of
the original delta's operations; the reversal is the generic one (operations
inverted, order flipped and re-based) with the stickiness forced on the
resulting head afterwards. -/
theorem splitdelta_C5_reversal_sticky (d : Delta) (h : d.operations ≠ []) :
    ∃ op rest g0,
      (SplitDelta.getReversed d).operations = op :: rest ∧
      op.isSticky = true ∧
      (Delta.getReversedGeneric d).operations = g0 :: rest ∧
      op = g0.setSticky true := by
  obtain ⟨lastOp, rest, hlast, hgen, hsp, hkl⟩ := split_getReversed_decomp d h
  exact ⟨((lastOp.getReversed).withBase (lastOp.baseVersion + 1)).setSticky true, rest,
    (lastOp.getReversed).withBase (lastOp.baseVersion + 1), hsp,
    reversed_setSticky_isSticky lastOp _, hgen, rfl⟩

/-- Witness for C5: a split-shaped delta whose own move operation is NOT
sticky still reverses to a delta with a sticky first operation. -/
theorem splitdelta_C5_witness :
    ∃ op rest g0,
      (SplitDelta.getReversed d2).operations = op :: rest ∧
      op.isSticky = true ∧
      (Delta.getReversedGeneric d2).operations = g0 :: rest ∧
      op = g0.setSticky true :=
  splitdelta_C5_reversal_sticky d2 (fun h => List.noConfusion h)

/-- Counterexample for C6: a SplitDelta holding exactly one operation has a
null position even though its operation list is not empty, refuting "null
exactly when the delta holds no operations". -/
theorem splitdelta_C6_cex : SplitDelta.position d1 = none ∧ d1.operations ≠ [] :=
  ⟨rfl, fun h => List.noConfusion h⟩

/-- C6 (amended): the position accessor returns the source position of the
delta's second operation — the move operation — when one is present, and
returns null whenever the delta holds fewer than two operations (so in
particular, but not only, when it holds none). -/
theorem splitdelta_C6_amended (d : Delta) :
    (d.operations.length < 2 → SplitDelta.position d = none) ∧
    (∀ op0 s k t st v rest,
      d.operations = op0 :: Operation.move s k t st v :: rest →
      SplitDelta.position d = some s) := by
  constructor
  · intro h
    unfold SplitDelta.position SplitDelta.moveOperation
    cases hops : d.operations with
    | nil => simp
    | cons a tl =>
      cases tl with
      | nil => simp
      | cons a2 tl2 =>
        rw [hops] at h
        simp only [List.length_cons] at h
        omega
  · intro op0 s k t st v rest h2
    unfold SplitDelta.position SplitDelta.moveOperation
    rw [h2]
    simp [Operation.sourcePosition]

/-- Witness for C6 (amended): a one-operation delta reports a null position;
a two-operation delta reports its move operation's source position. -/
theorem splitdelta_C6_witness :
    SplitDelta.position d1 = none ∧ SplitDelta.position d2 = some ⟨[0], 1⟩ :=
  ⟨(splitdelta_C6_amended d1).1 (by decide),
   (splitdelta_C6_amended d2).2 (Operation.insert ⟨[0], 1⟩ [Node.leaf 9] 4)
     ⟨[0], 1⟩ 2 ⟨[1], 0⟩ false 5 [] rfl⟩

/-- C7: a SplitDelta with zero operations reports a null position rather than
erroring, and reversing it succeeds, yielding a delta that again has zero
operations and a null anchor position (both under the split accessor and the
merge accessor of the reversed delta) — a deliberate no-op. -/
theorem splitdelta_C7_empty (d : Delta) (h : d.operations = []) :
    SplitDelta.position d = none ∧
    (SplitDelta.getReversed d).operations = [] ∧
    SplitDelta.position (SplitDelta.getReversed d) = none ∧
    MergeDelta.position (SplitDelta.getReversed d) = none := by
  have h2 : (SplitDelta.getReversed d).operations = [] := by
    simp [SplitDelta.getReversed, Delta.getReversedGeneric, h]
  refine ⟨?_, h2, ?_, ?_⟩
  · unfold SplitDelta.position SplitDelta.moveOperation
    simp [h]
  · unfold SplitDelta.position SplitDelta.moveOperation
    simp [h2]
  · unfold MergeDelta.position
    simp [h2]

/-- Witness for C7: the concrete empty split delta. -/
theorem splitdelta_C7_witness :
    SplitDelta.position d0 = none ∧
    (SplitDelta.getReversed d0).operations = [] ∧
    SplitDelta.position (SplitDelta.getReversed d0) = none ∧
    MergeDelta.position (SplitDelta.getReversed d0) = none :=
  splitdelta_C7_empty d0 rfl

/-- C8: for every SplitDelta instance, the declared reverse delta class is
`MergeDelta`, the type tag is the constant "split", and the class name is
the constant "engine.model.delta.SplitDelta" — independent of the delta's
operations or state. -/
theorem splitdelta_C8_pairing (d : Delta) :
    SplitDelta.reverseDeltaClass d = DeltaClass.mergeDelta ∧
    SplitDelta.type d = "split" ∧
    SplitDelta.className = "engine.model.delta.SplitDelta" :=
  ⟨rfl, rfl, rfl⟩

/-- Counterexample for C9: at the concrete valid split request, the returned
value is the batch (left injection), not the constructed delta — the claim
`requestSplit(position) -> Delta` fails on the code, which is `@chainable`
and ends in `return this`. -/
theorem splitdelta_C9_cex :
    returnedDelta (Batch.split batch0 doc0 pos0).result = false ∧
    (Batch.split batch0 doc0 pos0).result =
      Except.ok (Sum.inl (Batch.split batch0 doc0 pos0).batch) :=
  ⟨rfl, rfl⟩

/-- C9 (amended): for every valid non-root position, the split request
returns the batch itself (for chaining), with the constructed two-operation
SplitDelta appended as the last delta of that batch. -/
theorem splitdelta_C9_amended (doc : Document) (b : Batch) (q : List Nat) (j off : Nat)
    (nmE : String) (aE : List (String × String)) (cs : List Node)
    (hres : doc.root.get? (q ++ [j]) = some (Node.element nmE aE cs))
    (hoff : off ≤ cs.length) :
    (Batch.split b doc ⟨q ++ [j], off⟩).result =
      Except.ok (Sum.inl (Batch.split b doc ⟨q ++ [j], off⟩).batch) ∧
    ∃ d, (Batch.split b doc ⟨q ++ [j], off⟩).batch.deltas = b.deltas ++ [d] ∧
      d.klass = DeltaClass.splitDelta ∧ d.operations.length = 2 := by
  obtain ⟨n1, n2, ha, hb, hc, hd, he, hf⟩ := split_main doc b q j off nmE aE cs hres hoff
  rw [hc]
  exact ⟨rfl, _, rfl, rfl, rfl⟩

/-- Witness for C9 (amended): the concrete scenario. -/
theorem splitdelta_C9_witness :
    (Batch.split batch0 doc0 ⟨[0], 1⟩).result =
      Except.ok (Sum.inl (Batch.split batch0 doc0 ⟨[0], 1⟩).batch) ∧
    ∃ d, (Batch.split batch0 doc0 ⟨[0], 1⟩).batch.deltas = batch0.deltas ++ [d] ∧
      d.klass = DeltaClass.splitDelta ∧ d.operations.length = 2 :=
  splitdelta_C9_amended doc0 batch0 [] 0 1 "p" []
    [Node.leaf 0, Node.leaf 1, Node.leaf 2] rfl (by decide)

/-- C10: the split reversal differs from the generic reversal only in the
sticky flag of the head operation: the class and the tail of the operation
sequence (hence the order) are exactly those of the generic reversal, and
the changed head is the generic head with only its sticky flag forced —
restoring the recorded flag restores the generic head exactly. -/
theorem splitdelta_C10_frame (d : Delta) (h : d.operations ≠ []) :
    ∃ g0 rest,
      (Delta.getReversedGeneric d).operations = g0 :: rest ∧
      (SplitDelta.getReversed d).operations = g0.setSticky true :: rest ∧
      (SplitDelta.getReversed d).klass = (Delta.getReversedGeneric d).klass ∧
      (g0.setSticky true).setSticky g0.isSticky = g0 := by
  obtain ⟨lastOp, rest, hlast, hgen, hsp, hkl⟩ := split_getReversed_decomp d h
  refine ⟨(lastOp.getReversed).withBase (lastOp.baseVersion + 1), rest, hgen, hsp, ?_,
    reversed_setSticky_restore lastOp _⟩
  rw [hkl]
  simp [Delta.getReversedGeneric]

/-- Witness for C10: the frame property at the concrete two-operation
split-shaped delta. -/
theorem splitdelta_C10_witness :
    ∃ g0 rest,
      (Delta.getReversedGeneric d2).operations = g0 :: rest ∧
      (SplitDelta.getReversed d2).operations = g0.setSticky true :: rest ∧
      (SplitDelta.getReversed d2).klass = (Delta.getReversedGeneric d2).klass ∧
      (g0.setSticky true).setSticky g0.isSticky = g0 :=
  splitdelta_C10_frame d2 (fun h => List.noConfusion h)
